import Mathlib

/-!
Verification of the two documentation-maintenance scripts of this repository:
`versions.py` (the Branch Manifest Generator) and `add_version_sidebar.py`
(the Sidebar Injector).

The embedding is shallow: the pure data flow of each script is translated into
executable Lean definitions, file I/O becomes explicit state passing over a
map from file names to file contents, and the HTML tree manipulated through
BeautifulSoup becomes an inductive tree of elements and text nodes.
-/

/-! ## Part 1: `versions.py`

`generate_branch_json(branches, output_file='branches.json')` builds
`{"branches": [{"name": b, "url": "/dgl_docs/en/" + b + "/"} for b in branches]}`,
appends `{"name": "latest", "url": "/dgl_docs/"}`, and writes it with
`json.dump(data, f, indent=2)` (default `ensure_ascii=True`).
-/

/-- One entry of the `"branches"` array: a `name`/`url` pair. -/
structure BranchRecord where
  name : String
  url : String
deriving DecidableEq

/-- The record built for one branch name by the list comprehension in
`generate_branch_json`: the name verbatim and the interpolated URL
`f"/dgl_docs/en/{branch}/"`. -/
def mkBranchRecord (branch : String) : BranchRecord :=
  ⟨branch, "/dgl_docs/en/" ++ branch ++ "/"⟩

/-- The synthetic trailing record appended unconditionally:
`{"name": "latest", "url": "/dgl_docs/"}`. -/
def latestBranchRecord : BranchRecord :=
  ⟨"latest", "/dgl_docs/"⟩

/-- The value of the top-level `"branches"` key of the generated document. -/
def branchesData (branches : List String) : List BranchRecord :=
  (branches.map mkBranchRecord) ++ [latestBranchRecord]

/-! ### The serializer: `json.dump(data, f, indent=2)` with `ensure_ascii=True`

CPython's encoder, at this fixed document shape (an object with the single key
`"branches"` holding an array of objects with string fields `"name"`, `"url"`),
indents each nesting level by 2 further spaces, uses `", "`-free separators
`(',', ': ')`, and escapes every character of a string that is not printable
ASCII (and `"` and `\`) with the standard short escapes or `\uXXXX`
(a surrogate pair for codepoints above U+FFFF). -/

/-- Lowercase hex digit, as produced by CPython's `'\u%04x'` formatting. -/
def hexDigit (n : Nat) : Char :=
  if n < 10 then Char.ofNat (48 + n) else Char.ofNat (87 + n)

/-- Four lowercase hex digits of `n`, as in `'%04x' % n` for `n < 0x10000`. -/
def toHex4 (n : Nat) : List Char :=
  [hexDigit (n / 4096 % 16), hexDigit (n / 256 % 16), hexDigit (n / 16 % 16), hexDigit (n % 16)]

/-- `json.dump`'s per-character string escaping with `ensure_ascii=True`:
`"` and `\` get a backslash, the five control characters with short names use
them, every other character outside printable ASCII (i.e. outside U+0020..U+007E)
becomes `\uXXXX`, with a surrogate pair above U+FFFF. -/
def escapeChar (c : Char) : List Char :=
  if c = '"' then ['\\', '"']
  else if c = '\\' then ['\\', '\\']
  else if c.toNat = 8 then ['\\', 'b']
  else if c.toNat = 9 then ['\\', 't']
  else if c.toNat = 10 then ['\\', 'n']
  else if c.toNat = 12 then ['\\', 'f']
  else if c.toNat = 13 then ['\\', 'r']
  else if 32 ≤ c.toNat ∧ c.toNat ≤ 126 then [c]
  else if c.toNat ≤ 65535 then '\\' :: 'u' :: toHex4 c.toNat
  else ('\\' :: 'u' :: toHex4 (55296 + (c.toNat - 65536) / 1024))
       ++ ('\\' :: 'u' :: toHex4 (56320 + (c.toNat - 65536) % 1024))

/-- A JSON string literal: the escaped characters between double quotes. -/
def encChars (s : String) : List Char :=
  '"' :: (s.data.flatMap escapeChar ++ ['"'])

/-- One `{"name": ..., "url": ...}` object as `json.dump` prints it at nesting
depth 2 (4 leading spaces for the object, 6 for its members). -/
def recordChars (r : BranchRecord) : List Char :=
  "    \x7b\n      \"name\": ".data ++ encChars r.name
    ++ ",\n      \"url\": ".data ++ encChars r.url ++ "\n    \x7d".data

/-- The array elements joined by `",\n"` (`json.dump`'s item separator at
`indent=2`). -/
def recordsChars : List BranchRecord → List Char
  | [] => []
  | [r] => recordChars r
  | r :: r2 :: rest => recordChars r ++ ",\n".data ++ recordsChars (r2 :: rest)

/-- The full document `{"branches": [...]}` as `json.dump(data, f, indent=2)`
prints it (an empty array collapses to `[]`). -/
def manifestChars (recs : List BranchRecord) : List Char :=
  "\x7b\n  \"branches\": [".data
    ++ (if recs.isEmpty then "]".data else "\n".data ++ recordsChars recs ++ "\n  ]".data)
    ++ "\n\x7d".data

/-- The serialized manifest text. -/
def serializeManifest (recs : List BranchRecord) : String :=
  String.mk (manifestChars recs)

/-! ### The effectful part: file system and process entry point -/

/-- The file system, as a map from file names to file contents. -/
def FS : Type := String → Option String

/-- A file system with no files. -/
def emptyFS : FS := fun _ => none

/-- The default value of `generate_branch_json`'s `output_file` parameter. -/
def defaultOutputFile : String := "branches.json"

/-- `generate_branch_json(branches, output_file)`: serialize `branchesData`
and write it to `output_file` (creating or overwriting that file), then print
the success message. Returns the updated file system and the printed lines. -/
def generate_branch_json (branches : List String) (output_file : String) (fs : FS) :
    FS × List String :=
  (fun name => if name = output_file
     then some (serializeManifest (branchesData branches)) else fs name,
   ["JSON file \x27" ++ output_file ++ "\x27 has been generated successfully."])

/-- The usage line printed by the `__main__` block when no branch is given. -/
def usageMessage : String := "Usage: python script.py branch1 branch2 ..."

/-- Observable outcome of one run of the script's `__main__` block. -/
structure MainResult where
  exitCode : Nat
  stdoutLines : List String
  fs : FS

/-- The `__main__` block of `versions.py`: `argv` is the full `sys.argv`
(script name first). With fewer than 2 entries it prints the usage message and
exits with status 1; otherwise it runs `generate_branch_json(sys.argv[1:])`
and finishes with status 0. -/
def versionsMain (argv : List String) (fs : FS) : MainResult :=
  if argv.length < 2 then
    ⟨1, [usageMessage], fs⟩
  else
    let r := generate_branch_json (argv.drop 1) defaultOutputFile fs
    ⟨0, r.2, r.1⟩

/-! ## Theorems about `versions.py` -/

/-- C1: for every non-empty branch list of length N, the `"branches"` array
has length N+1, element i (i < N) is the record for `branches[i]` in input
order, and the last element is `{"name": "latest", "url": "/dgl_docs/"}`. -/
theorem branchesData_shape (branches : List String) (h : branches ≠ []) :
    (branchesData branches).length = branches.length + 1 ∧
    (∀ i, i < branches.length →
      (branchesData branches).get? i = (branches.get? i).map mkBranchRecord) ∧
    (branchesData branches).get? branches.length = some latestBranchRecord := by
  refine ⟨by simp [branchesData], ?_, ?_⟩
  · intro i hi
    rw [branchesData, List.get?_append (by simpa using hi), List.get?_map]
  · rw [branchesData]
    have hl : branches.length = (branches.map mkBranchRecord).length := by simp
    rw [hl, List.get?_concat_length]

/-- Witness for C1 at the spec's example input `["1.0.x", "1.1.x"]`. -/
theorem branchesData_shape_witness :
    (branchesData ["1.0.x", "1.1.x"]).length = (["1.0.x", "1.1.x"] : List String).length + 1 ∧
    (∀ i, i < (["1.0.x", "1.1.x"] : List String).length →
      (branchesData ["1.0.x", "1.1.x"]).get? i
        = ((["1.0.x", "1.1.x"] : List String).get? i).map mkBranchRecord) ∧
    (branchesData ["1.0.x", "1.1.x"]).get? (["1.0.x", "1.1.x"] : List String).length
      = some latestBranchRecord :=
  branchesData_shape ["1.0.x", "1.1.x"] (by decide)

/-- C3: with zero branch-name arguments (`len(sys.argv) < 2`) the entry point
prints the usage message, exits with status 1 and leaves the file system
unchanged; with at least one branch argument it exits with status 0. -/
theorem versionsMain_exit_behavior (argv : List String) (fs : FS) :
    (argv.length < 2 →
      (versionsMain argv fs).exitCode = 1 ∧
      (versionsMain argv fs).stdoutLines = [usageMessage] ∧
      (versionsMain argv fs).fs = fs) ∧
    (2 ≤ argv.length → (versionsMain argv fs).exitCode = 0) := by
  constructor
  · intro h
    simp [versionsMain, h]
  · intro h
    simp [versionsMain, Nat.not_lt.mpr h]

/-- Witness for C3: a run with only the script name in `argv`. -/
theorem versionsMain_exit_behavior_witness :
    (versionsMain ["script.py"] emptyFS).exitCode = 1 ∧
    (versionsMain ["script.py"] emptyFS).stdoutLines = [usageMessage] ∧
    (versionsMain ["script.py"] emptyFS).fs = emptyFS :=
  (versionsMain_exit_behavior ["script.py"] emptyFS).1 (by decide)

/-- C8: called directly with an empty branch list, `generate_branch_json`
does not fail: it writes a manifest whose `"branches"` array holds exactly
the one synthetic `latest` record. -/
theorem generate_branch_json_empty_input (fs : FS) :
    branchesData [] = [latestBranchRecord] ∧
    (generate_branch_json [] defaultOutputFile fs).1 defaultOutputFile
      = some (serializeManifest [latestBranchRecord]) := by
  refine ⟨rfl, ?_⟩
  simp [generate_branch_json, branchesData]

/-- C9: no validation or deduplication happens: every element of the array is
the verbatim name and the verbatim interpolated URL (in particular empty names
and names with slashes pass through unmodified), and an input that already
contains `"latest"` k times yields k+1 records named `"latest"`. -/
theorem branchesData_verbatim (branches : List String) :
    (branchesData branches).map BranchRecord.name = branches ++ ["latest"] ∧
    (branchesData branches).map BranchRecord.url
      = branches.map (fun b => "/dgl_docs/en/" ++ b ++ "/") ++ ["/dgl_docs/"] ∧
    (branchesData branches).countP (fun r => r.name == "latest")
      = branches.count "latest" + 1 := by
  refine ⟨?_, ?_, ?_⟩
  · simp [branchesData, Function.comp_def, mkBranchRecord, latestBranchRecord]
  · simp [branchesData, Function.comp_def, mkBranchRecord, latestBranchRecord]
  · rw [branchesData, List.countP_append, List.countP_map, List.count_eq_countP]
    simp [Function.comp_def, mkBranchRecord, latestBranchRecord]

/-! ### ASCII analysis of the serializer -/

/-- Every hex digit is an ASCII character. -/
theorem hexDigit_ascii : ∀ n < 16, (hexDigit n).toNat < 128 := by decide

/-- Every character of a `%04x` rendering is ASCII. -/
theorem toHex4_ascii (m : Nat) (d : Char) (hd : d ∈ toHex4 m) : d.toNat < 128 := by
  simp only [toHex4, List.mem_cons, List.not_mem_nil, or_false] at hd
  rcases hd with h | h | h | h <;> subst h <;>
    exact hexDigit_ascii _ (Nat.mod_lt _ (by norm_num))

/-- Every character emitted by `escapeChar` is ASCII. -/
theorem escapeChar_ascii (c d : Char) (hd : d ∈ escapeChar c) : d.toNat < 128 := by
  unfold escapeChar at hd
  split_ifs at hd with h1 h2 h3 h4 h5 h6 h7 h8 h9
  · simp only [List.mem_cons, List.not_mem_nil, or_false] at hd
    rcases hd with h | h <;> subst h <;> decide
  · simp only [List.mem_cons, List.not_mem_nil, or_false] at hd
    rcases hd with h | h <;> subst h <;> decide
  · simp only [List.mem_cons, List.not_mem_nil, or_false] at hd
    rcases hd with h | h <;> subst h <;> decide
  · simp only [List.mem_cons, List.not_mem_nil, or_false] at hd
    rcases hd with h | h <;> subst h <;> decide
  · simp only [List.mem_cons, List.not_mem_nil, or_false] at hd
    rcases hd with h | h <;> subst h <;> decide
  · simp only [List.mem_cons, List.not_mem_nil, or_false] at hd
    rcases hd with h | h <;> subst h <;> decide
  · simp only [List.mem_cons, List.not_mem_nil, or_false] at hd
    rcases hd with h | h <;> subst h <;> decide
  · simp only [List.mem_cons, List.not_mem_nil, or_false] at hd
    subst hd; omega
  · simp only [List.mem_cons] at hd
    rcases hd with h | h | h
    · subst h; decide
    · subst h; decide
    · exact toHex4_ascii _ _ h
  · simp only [List.mem_append, List.mem_cons] at hd
    rcases hd with (h | h | h) | (h | h | h)
    · subst h; decide
    · subst h; decide
    · exact toHex4_ascii _ _ h
    · subst h; decide
    · subst h; decide
    · exact toHex4_ascii _ _ h

/-- Every character of a JSON string literal is ASCII. -/
theorem encChars_ascii (s : String) (d : Char) (hd : d ∈ encChars s) : d.toNat < 128 := by
  simp only [encChars, List.mem_cons, List.mem_append, List.mem_flatMap,
    List.not_mem_nil, or_false] at hd
  rcases hd with h | ⟨c, _, h⟩ | h
  · subst h; decide
  · exact escapeChar_ascii c d h
  · subst h; decide

/-- Every character of a serialized record is ASCII. -/
theorem recordChars_ascii (r : BranchRecord) (d : Char) (hd : d ∈ recordChars r) :
    d.toNat < 128 := by
  simp only [recordChars, List.mem_append] at hd
  rcases hd with (((h | h) | h) | h) | h
  · exact (by decide : ∀ x ∈ "    \x7b\n      \"name\": ".data, x.toNat < 128) d h
  · exact encChars_ascii _ _ h
  · exact (by decide : ∀ x ∈ ",\n      \"url\": ".data, x.toNat < 128) d h
  · exact encChars_ascii _ _ h
  · exact (by decide : ∀ x ∈ "\n    \x7d".data, x.toNat < 128) d h

/-- Every character of the joined record list is ASCII. -/
theorem recordsChars_ascii (recs : List BranchRecord) (d : Char)
    (hd : d ∈ recordsChars recs) : d.toNat < 128 := by
  induction recs with
  | nil => simp [recordsChars] at hd
  | cons r rest ih =>
    cases rest with
    | nil => exact recordChars_ascii r d (by simpa [recordsChars] using hd)
    | cons r2 rest2 =>
      rw [recordsChars] at hd
      simp only [List.mem_append] at hd
      rcases hd with (h | h) | h
      · exact recordChars_ascii r d h
      · exact (by decide : ∀ x ∈ ",\n".data, x.toNat < 128) d h
      · exact ih h

/-- Every character of the serialized manifest is ASCII. -/
theorem manifestChars_ascii (recs : List BranchRecord) (d : Char)
    (hd : d ∈ manifestChars recs) : d.toNat < 128 := by
  simp only [manifestChars, List.mem_append] at hd
  rcases hd with (h | h) | h
  · exact (by decide : ∀ x ∈ "\x7b\n  \"branches\": [".data, x.toNat < 128) d h
  · split at h
    · exact (by decide : ∀ x ∈ "]".data, x.toNat < 128) d h
    · simp only [List.mem_append] at h
      rcases h with (h | h) | h
      · exact (by decide : ∀ x ∈ "\n".data, x.toNat < 128) d h
      · exact recordsChars_ascii _ _ h
      · exact (by decide : ∀ x ∈ "\n  ]".data, x.toNat < 128) d h
  · exact (by decide : ∀ x ∈ "\n\x7d".data, x.toNat < 128) d h

/-- C10: the serialized manifest text is pure ASCII, because `json.dump` runs
with its default `ensure_ascii`: every character of the output has codepoint
below 128, and any character outside printable ASCII (here: BMP codepoints at
or above 127 with no short escape) is rendered as a `\uXXXX` escape sequence
rather than as a raw character. -/
theorem serializeManifest_ascii_only (branches : List String) :
    (∀ c ∈ (serializeManifest (branchesData branches)).data, c.toNat < 128) ∧
    (∀ d : Char, 127 ≤ d.toNat → d.toNat ≤ 65535 →
      escapeChar d = '\\' :: 'u' :: toHex4 d.toNat) := by
  constructor
  · intro c hc
    exact manifestChars_ascii (branchesData branches) c hc
  · intro d h1 h2
    have hq : ¬(d = '"') := fun h => by subst h; simp at h1
    have hb : ¬(d = '\\') := fun h => by subst h; simp at h1
    rw [escapeChar, if_neg hq, if_neg hb, if_neg (by omega), if_neg (by omega),
      if_neg (by omega), if_neg (by omega), if_neg (by omega),
      if_neg (by omega), if_pos h2]

/-- Witness for C10 at an input branch name holding the non-ASCII character
U+00FC: the output still contains only ASCII, and U+00FC escapes to `ü`. -/
theorem serializeManifest_ascii_only_witness :
    ('n' ∈ (serializeManifest (branchesData [String.mk [Char.ofNat 252]])).data) ∧
    Char.toNat 'n' < 128 ∧
    (127 ≤ (Char.ofNat 252).toNat ∧ (Char.ofNat 252).toNat ≤ 65535 ∧
      escapeChar (Char.ofNat 252) = '\\' :: 'u' :: toHex4 (Char.ofNat 252).toNat) :=
  ⟨by decide,
   (serializeManifest_ascii_only [String.mk [Char.ofNat 252]]).1 'n' (by decide),
   by decide, by decide,
   (serializeManifest_ascii_only [String.mk [Char.ofNat 252]]).2 (Char.ofNat 252)
     (by decide) (by decide)⟩

/-- C6: for every non-empty branch list, the generator writes the serialized
manifest to the fixed default filename `branches.json`, overwriting whatever
content that file previously held. -/
theorem generate_branch_json_overwrites_default (branches : List String) (fs : FS)
    (old : String) (h : branches ≠ []) :
    (generate_branch_json branches defaultOutputFile
        (fun n => if n = defaultOutputFile then some old else fs n)).1 defaultOutputFile
      = some (serializeManifest (branchesData branches)) := by
  simp [generate_branch_json]

/-- Witness for C6 at the example input: a pre-existing `branches.json` holding
`"stale"` is overwritten with the 2-space-indented document. -/
theorem generate_branch_json_overwrites_default_witness :
    (["1.0.x", "1.1.x"] : List String) ≠ [] ∧
    (generate_branch_json ["1.0.x", "1.1.x"] defaultOutputFile
        (fun n => if n = defaultOutputFile then some "stale" else emptyFS n)).1 defaultOutputFile
      = some "\x7b\n  \"branches\": [\n    \x7b\n      \"name\": \"1.0.x\",\n      \"url\": \"/dgl_docs/en/1.0.x/\"\n    \x7d,\n    \x7b\n      \"name\": \"1.1.x\",\n      \"url\": \"/dgl_docs/en/1.1.x/\"\n    \x7d,\n    \x7b\n      \"name\": \"latest\",\n      \"url\": \"/dgl_docs/\"\n    \x7d\n  ]\n\x7d" := by
  refine ⟨by decide, ?_⟩
  rw [generate_branch_json_overwrites_default ["1.0.x", "1.1.x"] emptyFS "stale" (by decide)]
  rfl

/-! ## Part 2: `add_version_sidebar.py`

The script reads a template file once, walks a directory tree, and for each
`.html` file parses it with BeautifulSoup, runs
`soup.find('div', class_='wy-grid-for-nav')`, and if a match is found calls
`target_div.insert_after(template_soup)` and writes `str(soup)` back.

The parsed HTML document is modelled as a forest of nodes; an element carries
its tag, its attribute list and its children. `find` is pre-order first-match
(document order); `insert_after` splices the template's top-level nodes into
the sibling list right after the matched element. -/

/-- A node of the parsed HTML tree. -/
inductive Node where
  | elem (tag : String) (attrs : List (String × String)) (children : List Node)
  | text (s : String)

/-- Whitespace as used to split a multi-valued `class` attribute. -/
def isHtmlSpace (c : Char) : Bool :=
  c = ' ' || c = '\t' || c = '\n' || c = '\r' || c.toNat = 11 || c.toNat = 12

/-- Split a `class` attribute value into its whitespace-separated tokens
(BeautifulSoup stores `class` as such a list). -/
def splitClassesAux : List Char → List Char → List String
  | [], acc => if acc.isEmpty then [] else [String.mk acc.reverse]
  | c :: rest, acc =>
    if isHtmlSpace c then
      (if acc.isEmpty then [] else [String.mk acc.reverse]) ++ splitClassesAux rest []
    else splitClassesAux rest (c :: acc)

/-- The class tokens of an attribute list. -/
def classValues (attrs : List (String × String)) : List String :=
  splitClassesAux ((attrs.lookup "class").getD "").data []

/-- The selector of `soup.find('div', class_='wy-grid-for-nav')`: an element
whose tag is `div` and whose `class` attribute includes the token
`wy-grid-for-nav`. -/
def isTarget : Node → Bool
  | Node.elem tag attrs _ => tag == "div" && (classValues attrs).contains "wy-grid-for-nav"
  | Node.text _ => false

mutual
/-- Whether a node's subtree (the node included) holds a matching element. -/
def hasTargetN : Node → Bool
  | Node.elem t a cs => isTarget (Node.elem t a cs) || hasTargetL cs
  | Node.text _ => false
/-- Whether a forest holds a matching element. -/
def hasTargetL : List Node → Bool
  | [] => false
  | n :: rest => hasTargetN n || hasTargetL rest
end

mutual
/-- `soup.find(...)` followed by `target_div.insert_after(template_soup)`,
at the node level: descend into an element's children. -/
def findInsertN (tpl : List Node) : Node → Option Node
  | Node.elem t a cs => (findInsertL tpl cs).map (fun cs2 => Node.elem t a cs2)
  | Node.text _ => none
/-- `soup.find(...)` followed by `target_div.insert_after(template_soup)`:
walk the forest in document (pre-order) order; at the first matching element,
splice the template's nodes right after it in its sibling list and report the
rewritten forest. `none` when no element matches. -/
def findInsertL (tpl : List Node) : List Node → Option (List Node)
  | [] => none
  | n :: rest =>
    if isTarget n then some (n :: (tpl ++ rest))
    else
      match findInsertN tpl n with
      | some n2 => some (n2 :: rest)
      | none => (findInsertL tpl rest).map (fun r2 => n :: r2)
end

/-- Per-file behavior of the script: when the anchor is found the file is
rewritten with the spliced tree (second component `true` = the file was
written); otherwise the file is left exactly as it was and not written. -/
def injectFile (tpl : List Node) (doc : List Node) : List Node × Bool :=
  match findInsertL tpl doc with
  | some doc2 => (doc2, true)
  | none => (doc, false)

/-! ### A path-based specification of the insertion

A path addresses a node in a forest: the last entry is an index into a sibling
list, the earlier entries descend through children. `targetPathsL` lists the
paths of all matching elements in document (pre-order) order; `insertAfterPathL`
splices the template right after the node a path points at. These are the
spec-side definitions against which `findInsertL` is proved. -/

/-- Re-address a path when one node is prepended to the sibling list. -/
def shiftHead : List Nat → List Nat
  | [] => []
  | i :: p => (i + 1) :: p

mutual
/-- All paths of matching elements below a node. -/
def targetPathsN : Node → List (List Nat)
  | Node.elem _ _ cs => targetPathsL cs
  | Node.text _ => []
/-- All paths of matching elements, in document (pre-order) order. -/
def targetPathsL : List Node → List (List Nat)
  | [] => []
  | n :: rest =>
    (if isTarget n then [[0]] else []) ++ (targetPathsN n).map (fun p => 0 :: p)
      ++ (targetPathsL rest).map shiftHead
end

/-- Splice `tpl` right after position `i` of a sibling list. -/
def insertAfterIdx (tpl : List Node) : Nat → List Node → List Node
  | _, [] => []
  | 0, n :: rest => n :: (tpl ++ rest)
  | i + 1, n :: rest => n :: insertAfterIdx tpl i rest

/-- Apply `f` to the children of the element at position `i` of a sibling
list (identity on a text node or an absent position). -/
def intoIdx (f : List Node → List Node) : Nat → List Node → List Node
  | _, [] => []
  | 0, Node.elem t a cs :: rest => Node.elem t a (f cs) :: rest
  | 0, Node.text s :: rest => Node.text s :: rest
  | i + 1, n :: rest => n :: intoIdx f i rest

/-- Splice `tpl` right after the node addressed by a path. -/
def insertAfterPathL (tpl : List Node) : List Nat → List Node → List Node
  | [], ns => ns
  | [i], ns => insertAfterIdx tpl i ns
  | i :: j :: q, ns => intoIdx (insertAfterPathL tpl (j :: q)) i ns

/-! ### Proof infrastructure: sizes and basic path lemmas -/

mutual
/-- Number of nodes in a subtree. -/
def sizeN : Node → Nat
  | Node.elem _ _ cs => 1 + sizeL cs
  | Node.text _ => 1
/-- Number of nodes in a forest. -/
def sizeL : List Node → Nat
  | [] => 0
  | n :: rest => sizeN n + sizeL rest
end

theorem sizeN_pos (n : Node) : 1 ≤ sizeN n := by
  cases n <;> simp [sizeN]

theorem insertAfterPathL_cons_succ (tpl : List Node) (j : Nat) (q : List Nat)
    (n : Node) (rest : List Node) :
    insertAfterPathL tpl ((j + 1) :: q) (n :: rest)
      = n :: insertAfterPathL tpl (j :: q) rest := by
  cases q with
  | nil => rfl
  | cons k q2 => rfl

theorem insertAfterPathL_zero_single (tpl : List Node) (n : Node) (rest : List Node) :
    insertAfterPathL tpl [0] (n :: rest) = n :: (tpl ++ rest) := rfl

theorem insertAfterPathL_zero_elem (tpl : List Node) (j : Nat) (q : List Nat)
    (t : String) (a : List (String × String)) (cs rest : List Node) :
    insertAfterPathL tpl (0 :: j :: q) (Node.elem t a cs :: rest)
      = Node.elem t a (insertAfterPathL tpl (j :: q) cs) :: rest := rfl

/-- No path produced by `targetPathsL` is empty. -/
theorem targetPaths_ne_nil :
    ∀ k ns, sizeL ns ≤ k → ∀ p ∈ targetPathsL ns, p ≠ [] := by
  intro k
  induction k with
  | zero =>
    intro ns h p hp
    cases ns with
    | nil => simp [targetPathsL] at hp
    | cons n rest =>
      exfalso
      have := sizeN_pos n
      rw [sizeL] at h
      omega
  | succ m ih =>
    intro ns h p hp
    cases ns with
    | nil => simp [targetPathsL] at hp
    | cons n rest =>
      have h1 := sizeN_pos n
      rw [sizeL] at h
      rw [targetPathsL] at hp
      simp only [List.mem_append, List.mem_map] at hp
      rcases hp with (hp | ⟨q, hq, rfl⟩) | ⟨q, hq, rfl⟩
      · by_cases ht : isTarget n
        · simp only [ht, if_true, List.mem_singleton] at hp
          subst hp
          simp
        · simp [ht] at hp
      · simp
      · have hqne : q ≠ [] := ih rest (by omega) q hq
        obtain ⟨j, q2, rfl⟩ := List.exists_cons_of_ne_nil hqne
        simp [shiftHead]

/-- Shared step for a sibling whose subtree holds no match: prepending it
commutes with the path-indexed insertion into the remaining siblings. -/
theorem skip_sibling_step (tpl : List Node) (n : Node) (rest : List Node)
    (hrec : findInsertL tpl rest
      = (targetPathsL rest).head?.map (fun p => insertAfterPathL tpl p rest))
    (hne : ∀ p ∈ targetPathsL rest, p ≠ []) :
    (findInsertL tpl rest).map (fun r2 => n :: r2)
      = ((targetPathsL rest).map shiftHead).head?.map
          (fun p => insertAfterPathL tpl p (n :: rest)) := by
  rw [hrec, List.head?_map]
  cases hh : (targetPathsL rest).head? with
  | none => rfl
  | some p =>
    obtain ⟨j, q, rfl⟩ := List.exists_cons_of_ne_nil (hne p (List.mem_of_mem_head? hh))
    simp only [Option.map_some', shiftHead]
    rw [insertAfterPathL_cons_succ]

/-- `findInsertL` equals the path-level specification: splice the template
right after the first matching element in document (pre-order) order. -/
theorem findInsertL_paths_aux :
    ∀ k tpl ns, sizeL ns ≤ k →
      findInsertL tpl ns
        = (targetPathsL ns).head?.map (fun p => insertAfterPathL tpl p ns) := by
  intro k
  induction k with
  | zero =>
    intro tpl ns h
    cases ns with
    | nil => rfl
    | cons n rest =>
      exfalso
      have := sizeN_pos n
      rw [sizeL] at h
      omega
  | succ m ih =>
    intro tpl ns h
    cases ns with
    | nil => rfl
    | cons n rest =>
      have h1 := sizeN_pos n
      rw [sizeL] at h
      have hrest : sizeL rest ≤ m := by omega
      by_cases ht : isTarget n
      · rw [findInsertL, if_pos ht, targetPathsL]
        simp only [ht, if_true, List.cons_append, List.singleton_append,
          List.head?_cons, Option.map_some']
        rfl
      · cases n with
        | text s =>
          rw [findInsertL, if_neg ht, targetPathsL]
          simp only [findInsertN, ht, if_false, targetPathsN, List.map_nil,
            List.nil_append]
          exact skip_sibling_step tpl (Node.text s) rest (ih tpl rest hrest)
            (targetPaths_ne_nil (sizeL rest) rest le_rfl)
        | elem t a cs =>
          have hcs : sizeL cs ≤ m := by
            rw [sizeN] at h
            omega
          rw [findInsertL, if_neg ht, targetPathsL]
          simp only [findInsertN, ht, if_false, targetPathsN, List.nil_append]
          rw [ih tpl cs hcs]
          cases hh : (targetPathsL cs).head? with
          | none =>
            rw [List.head?_eq_none_iff.mp hh]
            simp only [Option.map_none', Option.none_bind, List.map_nil,
              List.nil_append]
            exact skip_sibling_step tpl (Node.elem t a cs) rest (ih tpl rest hrest)
              (targetPaths_ne_nil (sizeL rest) rest le_rfl)
          | some p =>
            obtain ⟨j, q, rfl⟩ := List.exists_cons_of_ne_nil
              (targetPaths_ne_nil (sizeL cs) cs le_rfl p (List.mem_of_mem_head? hh))
            have hcons : targetPathsL cs = (j :: q) :: (targetPathsL cs).tail := by
              cases hcs2 : targetPathsL cs with
              | nil => rw [hcs2] at hh; simp at hh
              | cons x xs =>
                rw [hcs2] at hh
                simp only [List.head?_cons, Option.some.injEq] at hh
                rw [hh]
                rfl
            rw [hcons]
            simp only [Bool.false_eq_true, if_false, List.nil_append,
              List.map_cons, List.cons_append, List.head?_cons,
              Option.map_some', insertAfterPathL_zero_elem]

/-- Closed form of the characterization. -/
theorem findInsertL_paths (tpl ns : List Node) :
    findInsertL tpl ns
      = (targetPathsL ns).head?.map (fun p => insertAfterPathL tpl p ns) :=
  findInsertL_paths_aux (sizeL ns) tpl ns le_rfl

/-- `findInsertL` succeeds exactly on forests that hold a matching element. -/
theorem findInsertL_isSome_aux :
    ∀ k tpl ns, sizeL ns ≤ k → (findInsertL tpl ns).isSome = hasTargetL ns := by
  intro k
  induction k with
  | zero =>
    intro tpl ns h
    cases ns with
    | nil => rfl
    | cons n rest =>
      exfalso
      have := sizeN_pos n
      rw [sizeL] at h
      omega
  | succ m ih =>
    intro tpl ns h
    cases ns with
    | nil => rfl
    | cons n rest =>
      have h1 := sizeN_pos n
      rw [sizeL] at h
      have hrest : sizeL rest ≤ m := by omega
      by_cases ht : isTarget n
      · rw [findInsertL, if_pos ht, hasTargetL]
        cases n with
        | text s => simp [isTarget] at ht
        | elem t a cs => simp [hasTargetN, ht]
      · cases n with
        | text s =>
          rw [findInsertL, if_neg ht, hasTargetL]
          simp only [findInsertN, hasTargetN, Bool.false_or, Option.isSome_map']
          exact ih tpl rest hrest
        | elem t a cs =>
          have hcs : sizeL cs ≤ m := by
            rw [sizeN] at h
            omega
          rw [findInsertL, if_neg ht, hasTargetL]
          simp only [findInsertN, hasTargetN, ht, Bool.false_or]
          cases hfc : findInsertL tpl cs with
          | some cs2 =>
            have hyes : hasTargetL cs = true := by
              rw [← ih tpl cs hcs, hfc]
              rfl
            show (some (Node.elem t a cs2 :: rest)).isSome
                = (hasTargetL cs || hasTargetL rest)
            rw [hyes]
            rfl
          | none =>
            have hno : hasTargetL cs = false := by
              rw [← ih tpl cs hcs, hfc]
              rfl
            show ((findInsertL tpl rest).map (fun r2 => Node.elem t a cs :: r2)).isSome
                = (hasTargetL cs || hasTargetL rest)
            rw [hno, Option.isSome_map', ih tpl rest hrest]
            rfl

/-- Closed form. -/
theorem findInsertL_isSome (tpl ns : List Node) :
    (findInsertL tpl ns).isSome = hasTargetL ns :=
  findInsertL_isSome_aux (sizeL ns) tpl ns le_rfl

/-- `InsertedAfterAnchor tpl doc doc2`: `doc2` is `doc` with `tpl` spliced in
immediately after the first matching element (in document order) and nothing
else changed: siblings before the anchor (and their whole subtrees) hold no
match and are kept verbatim, the anchor itself is kept, and everything after
the spliced template is kept verbatim. -/
inductive InsertedAfterAnchor (tpl : List Node) : List Node → List Node → Prop
  | here (n : Node) (rest : List Node) (h : isTarget n = true) :
      InsertedAfterAnchor tpl (n :: rest) (n :: (tpl ++ rest))
  | descend (t : String) (a : List (String × String)) (cs cs2 rest : List Node)
      (hn : isTarget (Node.elem t a cs) = false)
      (hcs : InsertedAfterAnchor tpl cs cs2) :
      InsertedAfterAnchor tpl (Node.elem t a cs :: rest) (Node.elem t a cs2 :: rest)
  | skip (n : Node) (rest rest2 : List Node) (hn : hasTargetN n = false)
      (hrest : InsertedAfterAnchor tpl rest rest2) :
      InsertedAfterAnchor tpl (n :: rest) (n :: rest2)

/-- Soundness: whenever `findInsertL` rewrites the forest, the rewrite is an
insertion right after the first anchor with the rest unchanged. -/
theorem findInsertL_sound_aux :
    ∀ k tpl ns ns2, sizeL ns ≤ k → findInsertL tpl ns = some ns2 →
      InsertedAfterAnchor tpl ns ns2 := by
  intro k
  induction k with
  | zero =>
    intro tpl ns ns2 h hf
    cases ns with
    | nil => simp [findInsertL] at hf
    | cons n rest =>
      exfalso
      have := sizeN_pos n
      rw [sizeL] at h
      omega
  | succ m ih =>
    intro tpl ns ns2 h hf
    cases ns with
    | nil => simp [findInsertL] at hf
    | cons n rest =>
      have h1 := sizeN_pos n
      rw [sizeL] at h
      have hrest : sizeL rest ≤ m := by omega
      by_cases ht : isTarget n
      · rw [findInsertL, if_pos ht] at hf
        obtain rfl : n :: (tpl ++ rest) = ns2 := by
          simpa using hf
        exact InsertedAfterAnchor.here n rest ht
      · rw [findInsertL, if_neg ht] at hf
        cases n with
        | text s =>
          simp only [findInsertN] at hf
          obtain ⟨rest2, hr2, rfl⟩ := Option.map_eq_some'.mp hf
          exact InsertedAfterAnchor.skip (Node.text s) rest rest2 rfl
            (ih tpl rest rest2 hrest hr2)
        | elem t a cs =>
          have hcs : sizeL cs ≤ m := by
            rw [sizeN] at h
            omega
          simp only [findInsertN] at hf
          cases hfc : findInsertL tpl cs with
          | some cs2 =>
            rw [hfc] at hf
            simp only [Option.map_some'] at hf
            obtain rfl : Node.elem t a cs2 :: rest = ns2 := by
              simpa using hf
            exact InsertedAfterAnchor.descend t a cs cs2 rest
              (by simpa using ht) (ih tpl cs cs2 hcs hfc)
          | none =>
            rw [hfc] at hf
            simp only [Option.map_none'] at hf
            obtain ⟨rest2, hr2, rfl⟩ := Option.map_eq_some'.mp hf
            have hno : hasTargetL cs = false := by
              rw [← findInsertL_isSome tpl cs, hfc]
              rfl
            refine InsertedAfterAnchor.skip (Node.elem t a cs) rest rest2 ?_
              (ih tpl rest rest2 hrest hr2)
            simp [hasTargetN, hno]
            simpa using ht

/-- C7: the insertion point is the first element of the parsed tree, in
document (pre-order) order, whose tag is `div` and whose class attribute
includes `wy-grid-for-nav`: the run equals splicing the template at the head
of `targetPathsL` (the pre-order list of all matching elements), so when
several matching elements exist only the first receives the fragment. -/
theorem findInsert_first_match (tpl doc : List Node) :
    findInsertL tpl doc
      = (targetPathsL doc).head?.map (fun p => insertAfterPathL tpl p doc) :=
  findInsertL_paths tpl doc

/-- C2: on every document holding an element matched by the anchor selector,
the run rewrites the file, and the rewritten document is the original with the
template content spliced in immediately after that anchor element, everything
else unchanged. -/
theorem injector_inserts_after_anchor (tpl doc : List Node)
    (h : hasTargetL doc = true) :
    ∃ doc2, injectFile tpl doc = (doc2, true) ∧ InsertedAfterAnchor tpl doc doc2 := by
  have hs : (findInsertL tpl doc).isSome = true := by
    rw [findInsertL_isSome tpl doc]
    exact h
  obtain ⟨doc2, hd⟩ := Option.isSome_iff_exists.mp hs
  refine ⟨doc2, ?_, findInsertL_sound_aux (sizeL doc) tpl doc doc2 le_rfl hd⟩
  rw [injectFile, hd]

/-- A concrete page: a `head`, then the anchor `div`, inside a `body`. -/
def samplePage : List Node :=
  [Node.elem "html" [] [
    Node.elem "head" [] [Node.text "t"],
    Node.elem "body" [] [
      Node.elem "div" [("class", "wy-grid-for-nav")] [Node.text "nav"]]]]

/-- A concrete template fragment. -/
def sampleTemplate : List Node :=
  [Node.elem "div" [("class", "version-sidebar")] [Node.text "versions"]]

/-- Witness for C2 on the concrete page. -/
theorem injector_inserts_after_anchor_witness :
    ∃ doc2, injectFile sampleTemplate samplePage = (doc2, true) ∧
      InsertedAfterAnchor sampleTemplate samplePage doc2 :=
  injector_inserts_after_anchor sampleTemplate samplePage (by decide)

/-- C5: a document with no element matched by the anchor selector is left
exactly as it was and the file is not written (and no error is raised: the
run is total). -/
theorem injector_skips_nonmatching (tpl doc : List Node)
    (h : hasTargetL doc = false) :
    injectFile tpl doc = (doc, false) := by
  have hn : findInsertL tpl doc = none := by
    have hs := findInsertL_isSome tpl doc
    rw [h] at hs
    exact Option.not_isSome_iff_eq_none.mp (by rw [hs]; simp)
  rw [injectFile, hn]

/-- Witness for C5: a page whose only `div` has a different class. -/
theorem injector_skips_nonmatching_witness :
    injectFile sampleTemplate
        [Node.elem "div" [("class", "wy-side-nav")] [Node.text "x"]]
      = ([Node.elem "div" [("class", "wy-side-nav")] [Node.text "x"]], false) :=
  injector_skips_nonmatching sampleTemplate
    [Node.elem "div" [("class", "wy-side-nav")] [Node.text "x"]] (by decide)

/-! ### Re-running the injector -/

theorem insertAfterIdx_twice (tpl : List Node) :
    ∀ i ns, insertAfterIdx tpl i (insertAfterIdx tpl i ns)
      = insertAfterIdx (tpl ++ tpl) i ns := by
  intro i
  induction i with
  | zero =>
    intro ns
    cases ns with
    | nil => rfl
    | cons n rest => simp [insertAfterIdx, List.append_assoc]
  | succ j ih =>
    intro ns
    cases ns with
    | nil => rfl
    | cons n rest => simp [insertAfterIdx, ih rest]

theorem intoIdx_twice (f g : List Node → List Node) :
    ∀ i ns, intoIdx g i (intoIdx f i ns) = intoIdx (fun cs => g (f cs)) i ns := by
  intro i
  induction i with
  | zero =>
    intro ns
    cases ns with
    | nil => rfl
    | cons n rest => cases n <;> rfl
  | succ j ih =>
    intro ns
    cases ns with
    | nil => rfl
    | cons n rest => simp [intoIdx, ih rest]

/-- Splicing the template twice at the same path is splicing its
self-concatenation once. -/
theorem insertAfterPathL_twice (tpl : List Node) :
    ∀ p ns, insertAfterPathL tpl p (insertAfterPathL tpl p ns)
      = insertAfterPathL (tpl ++ tpl) p ns := by
  intro p
  induction p with
  | nil => intro ns; rfl
  | cons i q ih =>
    cases q with
    | nil => intro ns; exact insertAfterIdx_twice tpl i ns
    | cons j q2 =>
      intro ns
      show intoIdx (insertAfterPathL tpl (j :: q2)) i
          (intoIdx (insertAfterPathL tpl (j :: q2)) i ns) = _
      rw [intoIdx_twice]
      show intoIdx _ i ns = intoIdx (insertAfterPathL (tpl ++ tpl) (j :: q2)) i ns
      congr 1
      funext cs
      exact ih cs

theorem isTarget_elem (t : String) (a : List (String × String)) (cs : List Node) :
    isTarget (Node.elem t a cs)
      = (t == "div" && (classValues a).contains "wy-grid-for-nav") := rfl

theorem eq_cons_of_head? {α : Type} (l : List α) (x : α) (h : l.head? = some x) :
    l = x :: l.tail := by
  cases l with
  | nil => simp at h
  | cons a l2 =>
    simp only [List.head?_cons, Option.some.injEq] at h
    subst h
    rfl

/-- Splicing the template right after the first anchor does not change which
path is the first anchor path: the spliced nodes sit after the anchor in
document order. -/
theorem head_path_stable_aux :
    ∀ k tpl ns p, sizeL ns ≤ k → (targetPathsL ns).head? = some p →
      (targetPathsL (insertAfterPathL tpl p ns)).head? = some p := by
  intro k
  induction k with
  | zero =>
    intro tpl ns p h hp
    cases ns with
    | nil => simp [targetPathsL] at hp
    | cons n rest =>
      exfalso
      have := sizeN_pos n
      rw [sizeL] at h
      omega
  | succ m ih =>
    intro tpl ns p h hp
    cases ns with
    | nil => simp [targetPathsL] at hp
    | cons n rest =>
      have h1 := sizeN_pos n
      rw [sizeL] at h
      have hrest : sizeL rest ≤ m := by omega
      by_cases ht : isTarget n
      · rw [targetPathsL] at hp
        simp only [ht, if_true, List.cons_append, List.singleton_append,
          List.head?_cons, Option.some.injEq] at hp
        subst hp
        rw [insertAfterPathL_zero_single, targetPathsL]
        simp [ht]
      · cases n with
        | text s =>
          rw [targetPathsL] at hp
          simp only [isTarget, Bool.false_eq_true, if_false, targetPathsN,
            List.map_nil, List.nil_append] at hp
          rw [List.head?_map] at hp
          cases hq : (targetPathsL rest).head? with
          | none =>
            rw [hq] at hp
            simp at hp
          | some q =>
            rw [hq] at hp
            simp only [Option.map_some', Option.some.injEq] at hp
            obtain ⟨j, q2, rfl⟩ := List.exists_cons_of_ne_nil
              (targetPaths_ne_nil (sizeL rest) rest le_rfl q (List.mem_of_mem_head? hq))
            subst hp
            simp only [shiftHead]
            rw [insertAfterPathL_cons_succ, targetPathsL]
            simp only [isTarget, Bool.false_eq_true, if_false, targetPathsN,
              List.map_nil, List.nil_append, List.head?_map]
            rw [ih tpl rest (j :: q2) hrest hq]
            rfl
        | elem t a cs =>
          have hcs : sizeL cs ≤ m := by
            rw [sizeN] at h
            omega
          have htb : (t == "div" && (classValues a).contains "wy-grid-for-nav") = false := by
            rw [← isTarget_elem t a cs]
            exact Bool.not_eq_true _ |>.mp ht
          rw [targetPathsL] at hp
          simp only [isTarget_elem, htb, Bool.false_eq_true, if_false,
            targetPathsN, List.nil_append] at hp
          cases hq : (targetPathsL cs).head? with
          | some q =>
            obtain ⟨j, q2, rfl⟩ := List.exists_cons_of_ne_nil
              (targetPaths_ne_nil (sizeL cs) cs le_rfl q (List.mem_of_mem_head? hq))
            rw [eq_cons_of_head? _ _ hq] at hp
            simp only [List.map_cons, List.cons_append, List.head?_cons,
              Option.some.injEq] at hp
            subst hp
            rw [insertAfterPathL_zero_elem, targetPathsL]
            simp only [isTarget_elem, htb, Bool.false_eq_true, if_false,
              targetPathsN, List.nil_append]
            rw [eq_cons_of_head? _ _ (ih tpl cs (j :: q2) hcs hq)]
            rfl
          | none =>
            rw [List.head?_eq_none_iff.mp hq, List.map_nil, List.nil_append,
              List.head?_map] at hp
            cases hq2 : (targetPathsL rest).head? with
            | none =>
              rw [hq2] at hp
              simp at hp
            | some q =>
              rw [hq2] at hp
              simp only [Option.map_some', Option.some.injEq] at hp
              obtain ⟨j, q2, rfl⟩ := List.exists_cons_of_ne_nil
                (targetPaths_ne_nil (sizeL rest) rest le_rfl q (List.mem_of_mem_head? hq2))
              subst hp
              simp only [shiftHead]
              rw [insertAfterPathL_cons_succ, targetPathsL]
              simp only [isTarget_elem, htb, Bool.false_eq_true, if_false,
                targetPathsN, List.head?_map]
              rw [List.head?_eq_none_iff.mp hq, List.map_nil, List.nil_append,
                List.nil_append, List.head?_map, ih tpl rest (j :: q2) hrest hq2]
              rfl

/-- Closed form. -/
theorem head_path_stable (tpl ns : List Node) (p : List Nat)
    (hp : (targetPathsL ns).head? = some p) :
    (targetPathsL (insertAfterPathL tpl p ns)).head? = some p :=
  head_path_stable_aux (sizeL ns) tpl ns p le_rfl hp

/-- C4: the injector is not idempotent. On a document with an anchor element
the first run writes the file, the second run still finds the anchor (nothing
guards against the fragment already being present) and writes again, and the
final document is the original with two concatenated copies of the template
(`tpl ++ tpl`) spliced right after the first anchor. -/
theorem injector_not_idempotent (tpl doc : List Node) (h : hasTargetL doc = true) :
    ∃ p, (targetPathsL doc).head? = some p ∧
      (injectFile tpl doc).2 = true ∧
      (injectFile tpl (injectFile tpl doc).1).2 = true ∧
      (injectFile tpl (injectFile tpl doc).1).1
        = insertAfterPathL (tpl ++ tpl) p doc := by
  have hs : (findInsertL tpl doc).isSome = true := by
    rw [findInsertL_isSome tpl doc]
    exact h
  rw [findInsertL_paths tpl doc] at hs
  cases hp : (targetPathsL doc).head? with
  | none =>
    rw [hp] at hs
    simp at hs
  | some p =>
    have h1 : findInsertL tpl doc = some (insertAfterPathL tpl p doc) := by
      rw [findInsertL_paths tpl doc, hp]
      rfl
    have h2 : findInsertL tpl (insertAfterPathL tpl p doc)
        = some (insertAfterPathL tpl p (insertAfterPathL tpl p doc)) := by
      rw [findInsertL_paths, head_path_stable tpl doc p hp]
      rfl
    have hfst : injectFile tpl doc = (insertAfterPathL tpl p doc, true) := by
      rw [injectFile, h1]
    refine ⟨p, rfl, ?_, ?_, ?_⟩
    · rw [hfst]
    · rw [hfst]
      show (injectFile tpl (insertAfterPathL tpl p doc)).2 = true
      rw [injectFile, h2]
    · rw [hfst]
      show (injectFile tpl (insertAfterPathL tpl p doc)).1 = _
      rw [injectFile, h2]
      exact insertAfterPathL_twice tpl p doc

/-- Witness for C4 on the concrete page. -/
theorem injector_not_idempotent_witness :
    ∃ p, (targetPathsL samplePage).head? = some p ∧
      (injectFile sampleTemplate samplePage).2 = true ∧
      (injectFile sampleTemplate (injectFile sampleTemplate samplePage).1).2 = true ∧
      (injectFile sampleTemplate (injectFile sampleTemplate samplePage).1).1
        = insertAfterPathL (sampleTemplate ++ sampleTemplate) p samplePage :=
  injector_not_idempotent sampleTemplate samplePage (by decide)
